import Mathlib

/-! Verification of the arloader core against its specification.

Shallow embedding of the bundle codec, Merkle chunker, path chunker, retry
loop, status classification and status-sidecar naming of the arloader
repository (`src/lib.rs`, `src/raw.rs`), together with proofs of the
specification claims about them.

Bytes are modelled as `Nat` (values < 256 where produced by the encoders),
byte strings as `List Nat`, and machine integers as `Nat` with explicit
`% 2 ^ 64` where wrap-around matters.  The cryptographic primitives
(SHA-256, SHA-384, RSA-PSS) are external collaborators of the program and
are modelled as an abstract `CryptoModel`.
-/

set_option maxRecDepth 40000

namespace Arloader

/-- The `WINSTONS_PER_AR` constant from `src/lib.rs`. -/
def WINSTONS_PER_AR : Nat := 1000000000000

/-- The `BLOCK_SIZE` constant from `src/lib.rs` (256 KiB). -/
def BLOCK_SIZE : Nat := 1024 * 256

/-- The `MAX_TX_DATA` constant from `src/lib.rs`. -/
def MAX_TX_DATA : Nat := 10000000

/-- The `CHUNKS_BUFFER_FACTOR` constant from `src/lib.rs`. -/
def CHUNKS_BUFFER_FACTOR : Nat := 20

/-- The `CHUNKS_RETRIES` constant from `src/lib.rs`. -/
def CHUNKS_RETRIES : Nat := 10

/-- The `CHUNKS_RETRY_SLEEP` constant from `src/lib.rs` (seconds slept between
chunk-POST retries). -/
def CHUNKS_RETRY_SLEEP : Nat := 1

/-- Modelled from the spec: `MAX_CHUNK_SIZE` / `CHUNK_SIZE` of the merkle
module (not under `src/`): 256 KiB. -/
def CHUNK_SIZE : Nat := 262144

/-- Modelled from the spec: `MIN_CHUNK_SIZE` / `HASH_SIZE` of the merkle
module (not under `src/`). -/
def HASH_SIZE : Nat := 32

--=========================
-- Byte-level helpers
--=========================

/-- Little-endian encoding of `n` into exactly `w` bytes (as `u64::to_le_bytes`
/ `u16::to_le_bytes` produce). -/
def leBytes : Nat → Nat → List Nat
  | 0, _ => []
  | w + 1, n => n % 256 :: leBytes w (n / 256)

/-- Little-endian decoding of a byte list (as `u64::from_le_bytes`). -/
def leDecode : List Nat → Nat
  | [] => 0
  | b :: rest => b + 256 * leDecode rest

--=========================
-- Avro-style zig-zag varint longs (tag list encoding)
--=========================

/-- Modelled from the spec: base-128 varint body of an Avro long (bundle
module's tag schema is not under `src/`).  Little-endian 7-bit groups, high
bit set on every byte but the last. -/
def varintEncode (n : Nat) : List Nat :=
  if h : n < 128 then [n]
  else (n % 128 + 128) :: varintEncode (n / 128)
  decreasing_by exact Nat.div_lt_self (by omega) (by omega)

/-- Modelled from the spec: varint decoder; returns the value and the
remaining bytes, or `none` on truncated input. -/
def varintDecode : List Nat → Option (Nat × List Nat)
  | [] => none
  | b :: rest =>
    if b < 128 then some (b, rest)
    else
      match varintDecode rest with
      | none => none
      | some (m, rest') => some (b - 128 + 128 * m, rest')

/-- Modelled from the spec: zig-zag encoding of a non-negative Avro long
(all longs written by the tag serializer are lengths and counts, hence
non-negative, and zig-zag to `2 * n`). -/
def zigzagEncode (n : Nat) : List Nat := varintEncode (2 * n)

/-- Modelled from the spec: zig-zag decoder specialised to the non-negative
longs the tag codec produces; an odd (i.e. negative) zig-zag value is a
decode failure. -/
def zigzagDecode (bs : List Nat) : Option (Nat × List Nat) :=
  match varintDecode bs with
  | none => none
  | some (m, rest) => if m % 2 = 0 then some (m / 2, rest) else none

--=========================
-- Byte-stream reading
--=========================

/-- Read exactly `n` bytes from the front of a byte list; `none` when the
input is too short. -/
def takeN (n : Nat) (bs : List Nat) : Option (List Nat × List Nat) :=
  if n ≤ bs.length then some (bs.take n, bs.drop n) else none

--=========================
-- Data-item tags (Avro-style binary array)
--=========================

/-- The `Tag<String>` of the bundle module: name and value as UTF-8 byte
strings.  (The bundle module is not under `src/`; field shape from the
spec's data model.) -/
structure Tag where
  name : List Nat
  value : List Nat
deriving DecidableEq

/-- Modelled from the spec: one tag of the Avro tag schema on the wire:
zig-zag length-prefixed name bytes, then zig-zag length-prefixed value
bytes. -/
def encodeTagOne (t : Tag) : List Nat :=
  zigzagEncode t.name.length ++ t.name ++ zigzagEncode t.value.length ++ t.value

/-- Modelled from the spec: the Avro-style array encoding of the tag list
(bundle module's `get_tags_schema` is not under `src/`): a zig-zag count,
the tags of the block, terminated by a zero-count block. -/
def encodeTags (tags : List Tag) : List Nat :=
  (if tags.isEmpty then [] else zigzagEncode tags.length ++ (tags.map encodeTagOne).flatten)
    ++ [0]

/-- Modelled from the spec: decoder for one tag. -/
def decodeTagOne (bs : List Nat) : Option (Tag × List Nat) := do
  let (nl, r) ← zigzagDecode bs
  let (nm, r) ← takeN nl r
  let (vl, r) ← zigzagDecode r
  let (vv, r) ← takeN vl r
  some (⟨nm, vv⟩, r)

/-- Modelled from the spec: decoder for `n` consecutive tags. -/
def decodeTagsN : Nat → List Nat → Option (List Tag × List Nat)
  | 0, bs => some ([], bs)
  | n + 1, bs => do
    let (t, r) ← decodeTagOne bs
    let (ts, r') ← decodeTagsN n r
    some (t :: ts, r')

/-- Modelled from the spec: decoder for the block-structured tag array;
reads blocks until a zero count.  `fuel` bounds the number of blocks (each
non-final block consumes at least one byte, so `input length + 1` suffices). -/
def decodeTagBlocks : Nat → List Nat → Option (List Tag × List Nat)
  | 0, _ => none
  | fuel + 1, bs => do
    let (cnt, r) ← zigzagDecode bs
    if cnt = 0 then some ([], r)
    else do
      let (ts, r') ← decodeTagsN cnt r
      let (ts', r'') ← decodeTagBlocks fuel r'
      some (ts ++ ts', r'')

/-- Modelled from the spec: tag-array decoder entry point. -/
def decodeTags (bs : List Nat) : Option (List Tag × List Nat) :=
  decodeTagBlocks (bs.length + 1) bs

--=========================
-- Crypto collaborator and deep hash
--=========================

/-- The cryptographic provider (`crypto` module, not under `src/`; the spec
declares the primitives as an external collaborator).  `verify sig msg`
models RSA-PSS verification of `sig` over `msg` against the owner's key. -/
structure CryptoModel where
  sha256 : List Nat → List Nat
  sha384 : List Nat → List Nat
  verify : List Nat → List Nat → Bool

/-- ASCII bytes of a string (all strings hashed by the deep-hash algorithm
are ASCII). -/
def strBytes (s : String) : List Nat := s.data.map Char.toNat

/-- ASCII decimal representation of a number. -/
def asciiDecimal (n : Nat) : List Nat := strBytes (toString n)

/-- Modelled from the spec: deep hash of a blob,
`H( H("blob") ++ H(decimal |b|) ++ H(b) )` with `H` = SHA-384 (the
`crypto` module is not under `src/`). -/
def deepHashBlob (c : CryptoModel) (b : List Nat) : List Nat :=
  c.sha384 (c.sha384 (strBytes "blob") ++ c.sha384 (asciiDecimal b.length) ++ c.sha384 b)

/-- Modelled from the spec: deep hash of a flat list of blobs (the shape of
a data item's deep-hash input): fold of `acc ↦ H(acc ++ DH(x))` over the
list, seeded with `H( H("list") ++ H(decimal |xs|) )`. -/
def deepHashBlobList (c : CryptoModel) (xs : List (List Nat)) : List Nat :=
  xs.foldl (fun acc x => c.sha384 (acc ++ deepHashBlob c x))
    (c.sha384 (c.sha384 (strBytes "list") ++ c.sha384 (asciiDecimal xs.length)))

--=========================
-- DataItem (bundle member)
--=========================

/-- The `DataItem` of the bundle module (not under `src/`; fields from the
spec's data model).  Byte fields are byte lists. -/
structure DataItem where
  sigType : Nat := 1
  signature : List Nat := []
  id : List Nat := []
  owner : List Nat := []
  target : List Nat := []
  anchor : List Nat := []
  tags : List Tag := []
  data : List Nat := []
deriving DecidableEq

/-- Modelled from the spec: deep-hash input of a data item (ordered blob
list `[ "dataitem", "1", ascii(signature_type), owner, target, anchor,
serialized_tag_bytes, data ]`). -/
def DataItem.deepHashInput (d : DataItem) : List (List Nat) :=
  [strBytes "dataitem", strBytes "1", asciiDecimal d.sigType, d.owner, d.target, d.anchor,
    encodeTags d.tags, d.data]

/-- Modelled from the spec: optional-field encoding on the wire: a presence
byte (0 or 1) followed by the 32 bytes when present. -/
def presenceField (bs : List Nat) : List Nat :=
  if bs.isEmpty then [0] else 1 :: bs

/-- Modelled from the spec: the serialized body of a data item
(`DataItem::to_bundle_item`'s binary component; the bundle module is not
under `src/`). -/
def DataItem.toBinary (d : DataItem) : List Nat :=
  leBytes 2 d.sigType ++ d.signature ++ d.owner
    ++ presenceField d.target ++ presenceField d.anchor
    ++ leBytes 8 d.tags.length ++ leBytes 8 (encodeTags d.tags).length
    ++ encodeTags d.tags ++ d.data

/-- Modelled from the spec: the per-item bundle index entry
(`DataItem::to_bundle_item`'s header component): 8-byte little-endian body
length, 24 zero bytes, the 32-byte item id. -/
def DataItem.bundleHeader (d : DataItem) : List Nat :=
  leBytes 8 d.toBinary.length ++ List.replicate 24 0 ++ d.id

/-- Modelled from the spec: reader for a presence-prefixed optional field. -/
def readPresence (bs : List Nat) : Option (List Nat × List Nat) :=
  match bs with
  | 0 :: r => some ([], r)
  | 1 :: r => takeN 32 r
  | _ => none

/-- Modelled from the spec: `DataItem::deserialize` (bundle module not
under `src/`): parse the on-wire layout; the parsed id is recomputed as
SHA-256 of the signature (the data model's id invariant). -/
def DataItem.deserialize (c : CryptoModel) (bs : List Nat) : Option DataItem := do
  let (st, r) ← takeN 2 bs
  let (sig, r) ← takeN 512 r
  let (own, r) ← takeN 512 r
  let (tgt, r) ← readPresence r
  let (anc, r) ← readPresence r
  let (_tagCount, r) ← takeN 8 r
  let (tbl, r) ← takeN 8 r
  let (tb, r) ← takeN (leDecode tbl) r
  let (tags, _) ← decodeTags tb
  some { sigType := leDecode st, signature := sig, id := c.sha256 sig, owner := own,
         target := tgt, anchor := anc, tags := tags, data := r }

/-- Well-formedness of a signed data item: machine-width bounds and the
fixed field sizes of the wire format. -/
def DataItem.wf (d : DataItem) : Prop :=
  d.sigType < 2 ^ 16 ∧ d.signature.length = 512 ∧ d.owner.length = 512 ∧
    d.id.length = 32 ∧ (d.target = [] ∨ d.target.length = 32) ∧
    (d.anchor = [] ∨ d.anchor.length = 32) ∧
    (encodeTags d.tags).length < 2 ^ 64 ∧ d.toBinary.length < 2 ^ 64

--=========================
-- Bundle codec
--=========================

/-- Outcome of running `Arweave::deserialize_bundle`: the function can
return `Ok`, return `Err` (from `DataItem::deserialize`), or panic (every
`.unwrap()` call on an exhausted byte iterator or on a failed signature
verification). -/
inductive PRes (α : Type) where
  | panicked : PRes α
  | failed : PRes α
  | ok : α → PRes α
deriving DecidableEq

/-- The `Arweave::create_bundle_from_data_items` (src/lib.rs:492-514), binary
component: the little-endian item count, 24 zero bytes, the concatenated
per-item headers, then the concatenated item bodies.  (The function also
builds a manifest JSON from the accompanying statuses; that value does not
contribute to the bundle binary and is not embedded.) -/
def createBundleFromDataItems (items : List DataItem) : List Nat :=
  leBytes 8 items.length ++ List.replicate 24 0
    ++ (items.map DataItem.bundleHeader).flatten
    ++ (items.map DataItem.toBinary).flatten

/-- The item-index parsing loop of `Arweave::deserialize_bundle`
(src/lib.rs:627-638): for each of `n` entries read an 8-byte length, skip
24 bytes, read a 32-byte id.  `none` models the `.unwrap()` panic on an
exhausted iterator. -/
def parseBundleIndex : Nat → List Nat → Option (List (Nat × List Nat) × List Nat)
  | 0, bs => some ([], bs)
  | n + 1, bs => do
    let (lenB, r) ← takeN 8 bs
    let (_, r) ← takeN 24 r
    let (idB, r) ← takeN 32 r
    let (hs, r') ← parseBundleIndex n r
    some ((leDecode lenB, idB) :: hs, r')

/-- The item parsing loop of `Arweave::deserialize_bundle`
(src/lib.rs:642-663): take each body, deserialize it (`?` propagates the
error), recompute the deep hash, verify the signature (`.unwrap()` panics
on failure), then overwrite the parsed id with the outer-index id. -/
def parseBundleItems (c : CryptoModel) :
    List (Nat × List Nat) → List Nat → PRes (List DataItem)
  | [], _ => .ok []
  | (len, oid) :: hs, r =>
    match takeN len r with
    | none => .panicked
    | some (body, r') =>
      match DataItem.deserialize c body with
      | none => .failed
      | some d =>
        if c.verify d.signature (deepHashBlobList c d.deepHashInput) then
          match parseBundleItems c hs r' with
          | .ok ds => .ok ({ d with id := oid } :: ds)
          | .failed => .failed
          | .panicked => .panicked
        else .panicked

/-- The `Arweave::deserialize_bundle` (src/lib.rs:618-666): read the 8-byte
item count, skip 24 bytes, parse the item index, then parse and verify the
items.  Exhausting the byte iterator at any point panics (`next().unwrap()`). -/
def deserializeBundle (c : CryptoModel) (bundle : List Nat) : PRes (List DataItem) :=
  match takeN 8 bundle with
  | none => .panicked
  | some (cnt, r) =>
    match takeN 24 r with
    | none => .panicked
    | some (_, r) =>
      match parseBundleIndex (leDecode cnt) r with
      | none => .panicked
      | some (hs, r') => parseBundleItems c hs r'

--=========================
-- Merkle builder
--=========================

/-- Big-endian encoding of `n` into exactly `w` bytes (the 32-byte `note`
of the Merkle proof encoding). -/
def beBytes : Nat → Nat → List Nat
  | 0, _ => []
  | w + 1, n => beBytes w (n / 256) ++ [n % 256]

/-- Modelled from the spec: the 32-byte big-endian note. -/
def noteBytes (n : Nat) : List Nat := beBytes 32 n

/-- A byte-range chunk produced while splitting a payload (merkle module,
not under `src/`). -/
structure ChunkRange where
  bytes : List Nat
  minByteRange : Nat
  maxByteRange : Nat
deriving DecidableEq

/-- Modelled from the spec: split the payload into consecutive
`CHUNK_SIZE` chunks, the last possibly shorter; a payload whose length is
an exact multiple of `CHUNK_SIZE` (including the empty payload) produces a
trailing empty chunk. -/
def splitChunks (data : List Nat) (offset : Nat) : List ChunkRange :=
  if h : data.length < CHUNK_SIZE then [⟨data, offset, offset + data.length⟩]
  else ⟨data.take CHUNK_SIZE, offset, offset + CHUNK_SIZE⟩ ::
    splitChunks (data.drop CHUNK_SIZE) (offset + CHUNK_SIZE)
  termination_by data.length
  decreasing_by simp [List.length_drop, CHUNK_SIZE] at h ⊢; omega

/-- Modelled from the spec: the rebalance rule: when the final chunk is
non-empty but shorter than `HASH_SIZE`, the last two chunks are re-split
with the penultimate boundary moved to the midpoint (shifted by
`HASH_SIZE`) of their combined range, producing two chunks each at least
`HASH_SIZE` long. -/
def rebalanceChunks (chunks : List ChunkRange) : List ChunkRange :=
  match chunks.getLast?, chunks.dropLast.getLast? with
  | some last, some penult =>
    if 0 < last.bytes.length ∧ last.bytes.length < HASH_SIZE then
      let combined := penult.bytes ++ last.bytes
      let firstLen := (combined.length + HASH_SIZE) / 2
      chunks.dropLast.dropLast ++
        [⟨combined.take firstLen, penult.minByteRange, penult.minByteRange + firstLen⟩,
         ⟨combined.drop firstLen, penult.minByteRange + firstLen, last.maxByteRange⟩]
    else chunks
  | _, _ => chunks

/-- Merkle tree node (merkle module, not under `src/`): a leaf carries its
chunk's data hash and byte range; a branch carries its children and the
right child's `max_byte_range`. -/
inductive MNode where
  | leaf (dataHash nodeId : List Nat) (minByteRange maxByteRange : Nat)
  | branch (nodeId : List Nat) (left right : MNode) (maxByteRange : Nat)
deriving DecidableEq

/-- The id of a Merkle node. -/
def MNode.nid : MNode → List Nat
  | .leaf _ i _ _ => i
  | .branch i _ _ _ => i

/-- The `max_byte_range` of a Merkle node. -/
def MNode.maxR : MNode → Nat
  | .leaf _ _ _ mx => mx
  | .branch _ _ _ mx => mx

/-- The `min_byte_range` of a Merkle node (a branch inherits its left
child's). -/
def MNode.minR : MNode → Nat
  | .leaf _ _ mn _ => mn
  | .branch _ l _ _ => l.minR

/-- Number of leaves under a node. -/
def MNode.leafCount : MNode → Nat
  | .leaf _ _ _ _ => 1
  | .branch _ l r _ => l.leafCount + r.leafCount

/-- Modelled from the spec: a leaf node over a chunk:
`id = H( H(data_hash) ++ H(note(max_byte_range)) )` with `H` = SHA-384 and
`data_hash` the chunk bytes' SHA-256. -/
def mkLeaf (c : CryptoModel) (cr : ChunkRange) : MNode :=
  let dataHash := c.sha256 cr.bytes
  .leaf dataHash
    (c.sha384 (c.sha384 dataHash ++ c.sha384 (noteBytes cr.maxByteRange)))
    cr.minByteRange cr.maxByteRange

/-- Modelled from the spec: `generate_leaves` of the merkle module: split,
rebalance, hash each chunk into a leaf. -/
def generateLeaves (c : CryptoModel) (data : List Nat) : List MNode :=
  (rebalanceChunks (splitChunks data 0)).map (mkLeaf c)

/-- Modelled from the spec: pair nodes left-to-right into branches
(`id = H( H(left.id) ++ H(right.id) ++ H(note(left.max_byte_range)) )`,
`max_byte_range` from the right child); an odd tail node is promoted
unchanged. -/
def buildLayer (c : CryptoModel) : List MNode → List MNode
  | a :: b :: rest =>
    .branch
      (c.sha384 (c.sha384 a.nid ++ c.sha384 b.nid ++ c.sha384 (noteBytes a.maxR)))
      a b b.maxR :: buildLayer c rest
  | l => l

/-- Modelled from the spec: `generate_data_root`: repeatedly build layers
until a single root node remains.  (Called on at least one leaf; the empty
case is unreachable.) -/
def generateDataRoot (c : CryptoModel) (nodes : List MNode) : MNode :=
  match nodes with
  | [] => .leaf [] [] 0 0
  | [n] => n
  | a :: b :: rest => generateDataRoot c (buildLayer c (a :: b :: rest))
  termination_by nodes.length
  decreasing_by
    have hlen : ∀ (l : List MNode), (buildLayer c l).length = (l.length + 1) / 2 := by
      intro l
      induction l using buildLayer.induct c with
      | case1 x y rest ihr => simp only [buildLayer, List.length_cons, ihr]; omega
      | case2 l h1 =>
        cases l with
        | nil => simp [buildLayer]
        | cons x t =>
          cases t with
          | nil => simp [buildLayer]
          | cons y rest => exact ((h1 x y rest rfl).elim)
    have := hlen (a :: b :: rest)
    simp only [List.length_cons] at this ⊢
    omega

/-- A chunk proof: the 0-based offset of the last byte of the chunk and
the root-to-leaf proof bytes. -/
structure Proof where
  offset : Nat
  proof : List Nat
deriving DecidableEq

/-- Modelled from the spec: `resolve_proofs`: depth-first from the root;
an interior node contributes `left.id ++ right.id ++ note(left.max)` to the
path, a leaf terminates it with `data_hash ++ note(max)` and offset
`max_byte_range - 1`. -/
def resolveProofs : MNode → List Nat → List Proof
  | .leaf dataHash _ _ mx, acc => [⟨mx - 1, acc ++ dataHash ++ noteBytes mx⟩]
  | .branch _ l r _, acc =>
    resolveProofs l (acc ++ l.nid ++ r.nid ++ noteBytes l.maxR) ++
      resolveProofs r (acc ++ l.nid ++ r.nid ++ noteBytes l.maxR)

--=========================
-- Transaction and merklize
--=========================

/-- The `Transaction` (transaction module, not under `src/`; fields from the
spec's data model, with the client-only `chunks` and `proofs`). -/
structure Transaction where
  format : Nat := 2
  id : List Nat := []
  lastTx : List Nat := []
  owner : List Nat := []
  tags : List Tag := []
  target : List Nat := []
  quantity : Nat := 0
  data : List Nat := []
  dataSize : Nat := 0
  dataRoot : List Nat := []
  reward : Nat := 0
  chunks : List MNode := []
  proofs : List Proof := []
deriving DecidableEq

/-- The `Arweave::merklize` (src/lib.rs:842-864): generate leaves, build the
root, resolve the proofs, then discard the final chunk and its proof when
that chunk has `max_byte_range == min_byte_range`. -/
def merklize (c : CryptoModel) (data : List Nat) : Transaction :=
  let chunks := generateLeaves c data
  let root := generateDataRoot c chunks
  let dataRoot := root.nid
  let proofs := resolveProofs root []
  let selected :=
    match chunks.getLast? with
    | some last =>
      if last.maxR = last.minR then (chunks.dropLast, proofs.dropLast)
      else (chunks, proofs)
    | none => (chunks, proofs)
  { format := 2, dataSize := data.length, data := data, dataRoot := dataRoot,
    chunks := selected.1, proofs := selected.2 }

/-- A trivial crypto model used to instantiate witnesses. -/
def trivialCrypto : CryptoModel := ⟨fun _ => [], fun _ => [], fun _ _ => true⟩

--=========================
-- create_transaction (reward computation)
--=========================

/-- The `Arweave::create_transaction` (src/lib.rs:776-827), pure core: merklize
the payload, set the owner to the keypair modulus (a parameter here, from
the crypto collaborator), attach the assembled tag list (built from the
external MIME sniffer and the crate version; taken as a parameter), set
`last_tx` (fetched from the gateway when not supplied; its value is a
parameter), and set the reward:
`blocks_len = data_size / BLOCK_SIZE + (data_size % BLOCK_SIZE != 0)`,
`reward = base + incremental * (blocks_len - 1)` in wrapping `u64`
arithmetic (modelled with explicit `% 2 ^ 64`). -/
def createTransaction (c : CryptoModel) (modulus : List Nat) (tags : List Tag)
    (lastTx : List Nat) (data : List Nat) (priceTerms : Nat × Nat) : Transaction :=
  let t := merklize c data
  let blocksLen := t.dataSize / BLOCK_SIZE +
    (if t.dataSize % BLOCK_SIZE ≠ 0 then 1 else 0)
  let reward :=
    (priceTerms.1 + priceTerms.2 * ((blocksLen + (2 ^ 64 - 1)) % 2 ^ 64)) % 2 ^ 64
  { t with owner := modulus, tags := tags, lastTx := lastTx, reward := reward }

--=========================
-- Path chunker
--=========================

/-- The `PathsChunk` (src/lib.rs:328): a batch of paths together with the
aggregate byte size of the batch. -/
structure PathsChunk where
  paths : List String
  size : Nat
deriving DecidableEq

/-- The fold step of `Arweave::chunk_file_paths` (src/lib.rs:471-483): on
overflow flush the current batch and start a new one seeded with the
triggering file, otherwise accumulate.  A file's metadata size is carried
with its path in the input. -/
def chunkStep (dataSize : Nat) (acc : List PathsChunk × List String × Nat)
    (p : String × Nat) : List PathsChunk × List String × Nat :=
  match acc with
  | (ip, i, dataLen) =>
    if dataLen + p.2 > dataSize then (ip ++ [⟨i, dataLen⟩], [p.1], p.2)
    else (ip, i ++ [p.1], dataLen + p.2)

/-- The `Arweave::chunk_file_paths` (src/lib.rs:463-490): greedy fold over the
paths, then push the final batch when it is non-empty. -/
def chunkFilePaths (files : List (String × Nat)) (dataSize : Nat) : List PathsChunk :=
  let r := files.foldl (chunkStep dataSize) ([], [], 0)
  if r.2.1.length > 0 then r.1 ++ [⟨r.2.1, r.2.2⟩] else r.1

--=========================
-- Chunk posting with retries
--=========================

/-- The `Chunk` (transaction module, not under `src/`; field shape from the
spec's chunk body). -/
structure Chunk where
  dataRoot : List Nat := []
  dataSize : Nat := 0
  dataPath : List Nat := []
  offset : Nat := 0
  chunk : List Nat := []
deriving DecidableEq

/-- The `Arweave::post_chunk` (src/lib.rs:866-883): returns `Ok(chunk.offset)`
on HTTP 200 and `Err(Error::StatusCodeNotOk)` on any other status.
`statusCode` is the HTTP status of the POST. -/
def postChunk (chunk : Chunk) (statusCode : Nat) : Except Unit Nat :=
  if statusCode = 200 then .ok chunk.offset else .error ()

/-- Observable trace of `post_chunk_with_retries`: the returned result, the
number of POST attempts made and the number of sleeps taken. -/
structure RetryTrace where
  result : Except Unit Nat
  attempts : Nat
  sleeps : Nat

/-- The retry loop of `Arweave::post_chunk_with_retries`
(src/lib.rs:893-904): while `retries < CHUNKS_RETRIES`, return on `Ok`,
otherwise sleep, increment `retries` and re-post the same chunk; once the
loop exits the last response is returned as is.  `rem` is the remaining
loop iterations (`CHUNKS_RETRIES - retries`), `next` the index of the next
attempt, `statuses i` the HTTP status of attempt `i`. -/
def retryGo (chunk : Chunk) (statuses : Nat → Nat) :
    Nat → Nat → Except Unit Nat → Nat → Nat → RetryTrace
  | 0, _, resp, att, slp => ⟨resp, att, slp⟩
  | rem + 1, next, resp, att, slp =>
    match resp with
    | .ok off => ⟨.ok off, att, slp⟩
    | .error _ =>
      retryGo chunk statuses rem (next + 1) (postChunk chunk (statuses next))
        (att + 1) (slp + 1)

/-- The `Arweave::post_chunk_with_retries` (src/lib.rs:885-905): one initial
POST, then the retry loop. -/
def postChunkWithRetries (chunk : Chunk) (statuses : Nat → Nat) : RetryTrace :=
  retryGo chunk statuses CHUNKS_RETRIES 1 (postChunk chunk (statuses 0)) 1 0

--=========================
-- Status classification (get_status)
--=========================

/-- The network's confirmation payload (status module, not under `src/`;
fields from the spec). -/
structure RawStatus where
  blockHeight : Nat
  blockIndepHash : List Nat
  numberOfConfirmations : Nat
deriving DecidableEq

/-- The `StatusCode` (status module, not under `src/`; variants from the
spec). -/
inductive StatusCode where
  | Submitted
  | Pending
  | NotFound
  | Confirmed
deriving DecidableEq

/-- The `Status` (status module, not under `src/`; fields from the spec's data
model; the default status is `Submitted`, `raw_status` defaults to none). -/
structure Status where
  id : List Nat := []
  status : StatusCode := .Submitted
  filePath : Option String := none
  contentType : String := "application/octet-stream"
  reward : Nat := 0
  rawStatus : Option RawStatus := none
deriving DecidableEq

/-- An HTTP response as observed by `get_status`: status code and body. -/
structure HttpResponse where
  code : Nat
  body : String
deriving DecidableEq

/-- Errors surfaced by `get_status`: a JSON decode failure of a
confirmation body, or `Error::ArweaveNetworkError` carrying the observed
HTTP status code. -/
inductive GetStatusError where
  | serde : GetStatusError
  | network : Nat → GetStatusError
deriving DecidableEq

/-- The `Arweave::get_status` (src/lib.rs:1254-1283): 200 with body "Pending"
→ `Pending`; 200 with any other body → parse it as the confirmation JSON
(`parse` models `serde_json::from_str`) and return `Confirmed`; 202 →
`Pending`; 404 → `NotFound`; anything else → `Err` with the code. -/
def getStatus (parse : String → Option RawStatus) (id : List Nat)
    (resp : HttpResponse) : Except GetStatusError Status :=
  let base : Status := { id := id }
  if resp.code = 200 then
    if resp.body = "Pending" then .ok { base with status := .Pending }
    else
      match parse resp.body with
      | some raw => .ok { base with status := .Confirmed, rawStatus := some raw }
      | none => .error .serde
  else if resp.code = 202 then .ok { base with status := .Pending }
  else if resp.code = 404 then .ok { base with status := .NotFound }
  else .error (.network resp.code)

--=========================
-- Status sidecar naming (write_status)
--=========================

/-- The file-name computation of `Arweave::write_status`
(src/lib.rs:1408-1433): an explicit stem wins; otherwise a status with a
file path requires a non-empty id (`Error::UnsignedTransaction`) and gets
the BLAKE3 hex of the path (`blake3Hex` models the external `blake3`
crate's hash display); a status without a file path gets `txid_{id}`
(`idDisplay` models the id's base64url display).  The extension is always
`json`. -/
def writeStatusName (blake3Hex : String → String) (idDisplay : List Nat → String)
    (status : Status) (fileStem : Option String) : Except Unit (String × String) :=
  match fileStem with
  | some stem => .ok (stem, "json")
  | none =>
    match status.filePath with
    | some p =>
      if status.id = [] then .error ()
      else .ok (blake3Hex p, "json")
    | none => .ok ("txid_" ++ idDisplay status.id, "json")

--=========================
-- Bundle upload stream buffer selection
--=========================

/-- The buffer selection of `upload_bundles_stream` (src/lib.rs:157-162)
and `upload_bundles_stream_with_sol` (src/lib.rs:201-206): read
`paths_chunks[0].1` (a panic on an empty vector, modelled by `none`,
raised before any upload starts) and choose `(bundles_buffer,
chunks_buffer)` from that first batch's size alone. -/
def bundlesChunksBuffers (pathsChunks : List PathsChunk) (buffer : Nat) :
    Option (Nat × Nat) :=
  match pathsChunks with
  | [] => none
  | pc :: _ =>
    some (if pc.size > MAX_TX_DATA then (1, buffer * CHUNKS_BUFFER_FACTOR)
      else (buffer, 1))

--=========================
-- Theorems
--=========================

theorem leBytes_length (w n : Nat) : (leBytes w n).length = w := by
  induction w generalizing n with
  | zero => rfl
  | succ w ih => simp [leBytes, ih]

theorem leDecode_leBytes (w n : Nat) : leDecode (leBytes w n) = n % 256 ^ w := by
  induction w generalizing n with
  | zero => simp [leBytes, leDecode, Nat.mod_one]
  | succ w ih =>
    simp only [leBytes, leDecode, ih]
    rw [pow_succ', Nat.mod_mul]

theorem leDecode_leBytes_of_lt {w n : Nat} (h : n < 256 ^ w) :
    leDecode (leBytes w n) = n := by
  rw [leDecode_leBytes, Nat.mod_eq_of_lt h]

theorem leBytes_bytes_lt (w n : Nat) : ∀ b ∈ leBytes w n, b < 256 := by
  induction w generalizing n with
  | zero => simp [leBytes]
  | succ w ih =>
    intro b hb
    simp only [leBytes, List.mem_cons] at hb
    rcases hb with h | h
    · subst h; exact Nat.mod_lt _ (by norm_num)
    · exact ih _ b h

/-- Unfolding equation for `varintEncode` (defined by well-founded
recursion, so not definitionally reducible). -/
theorem varintEncode_eq (n : Nat) :
    varintEncode n =
      if n < 128 then [n] else (n % 128 + 128) :: varintEncode (n / 128) := by
  rw [varintEncode]
  split <;> simp_all

theorem varintDecode_varintEncode (n : Nat) (rest : List Nat) :
    varintDecode (varintEncode n ++ rest) = some (n, rest) := by
  induction n using Nat.strong_induction_on with
  | _ n ih =>
    by_cases h : n < 128
    · rw [varintEncode, dif_pos h]
      simp [varintDecode, h]
    · rw [varintEncode, dif_neg h]
      have hd : n / 128 < n := Nat.div_lt_self (by omega) (by omega)
      have h2 : ¬ (n % 128 + 128 < 128) := by omega
      rw [List.cons_append]
      simp only [varintDecode, if_neg h2, List.append_eq, ih (n / 128) hd]
      have hn : n % 128 + 128 - 128 + 128 * (n / 128) = n := by omega
      rw [hn]

theorem zigzagDecode_zigzagEncode (n : Nat) (rest : List Nat) :
    zigzagDecode (zigzagEncode n ++ rest) = some (n, rest) := by
  simp [zigzagDecode, zigzagEncode, varintDecode_varintEncode, Nat.mul_div_cancel_left,
    Nat.mul_mod_right]

theorem takeN_append (xs rest : List Nat) :
    takeN xs.length (xs ++ rest) = some (xs, rest) := by
  simp [takeN]

theorem takeN_append_of_eq {n : Nat} {xs : List Nat} (h : xs.length = n)
    (rest : List Nat) : takeN n (xs ++ rest) = some (xs, rest) := by
  subst h; exact takeN_append xs rest

theorem decodeTagOne_encodeTagOne (t : Tag) (rest : List Nat) :
    decodeTagOne (encodeTagOne t ++ rest) = some (t, rest) := by
  simp only [decodeTagOne, encodeTagOne, List.append_assoc, zigzagDecode_zigzagEncode,
    Option.bind_eq_bind, Option.some_bind, takeN_append]

theorem decodeTagsN_encode (tags : List Tag) (rest : List Nat) :
    decodeTagsN tags.length ((tags.map encodeTagOne).flatten ++ rest) = some (tags, rest) := by
  induction tags with
  | nil => simp [decodeTagsN]
  | cons t ts ih =>
    simp only [List.map_cons, List.flatten_cons, List.length_cons, decodeTagsN,
      List.append_assoc, decodeTagOne_encodeTagOne, Option.bind_eq_bind, Option.some_bind, ih]

theorem decodeTagBlocks_encodeTags {fuel : Nat} (h : 2 ≤ fuel) (tags : List Tag)
    (rest : List Nat) :
    decodeTagBlocks fuel (encodeTags tags ++ rest) = some (tags, rest) := by
  obtain ⟨f, rfl⟩ : ∃ f, fuel = f + 2 := ⟨fuel - 2, by omega⟩
  by_cases he : tags.isEmpty
  · have : tags = [] := List.isEmpty_iff.mp he
    subst this
    simp [encodeTags, decodeTagBlocks, zigzagDecode, varintDecode]
  · simp only [encodeTags, if_neg he, List.append_assoc, List.cons_append, List.nil_append]
    simp only [decodeTagBlocks, zigzagDecode_zigzagEncode, Option.bind_eq_bind,
      Option.some_bind]
    have hlen : tags.length ≠ 0 := by
      cases tags with
      | nil => simp at he
      | cons a l => simp
    rw [if_neg hlen]
    simp only [decodeTagsN_encode, Option.some_bind]
    have h0 : zigzagDecode ((0 : Nat) :: rest) = some (0, rest) := by
      simp [zigzagDecode, varintDecode]
    simp [h0]

theorem decodeTags_encodeTags (tags : List Tag) :
    decodeTags (encodeTags tags) = some (tags, []) := by
  have h1 : 1 ≤ (encodeTags tags).length := by
    simp [encodeTags]
  have := @decodeTagBlocks_encodeTags ((encodeTags tags).length + 1)
    (by omega) tags []
  simpa [decodeTags] using this

theorem readPresence_presenceField {bs : List Nat} (h : bs = [] ∨ bs.length = 32)
    (r : List Nat) : readPresence (presenceField bs ++ r) = some (bs, r) := by
  rcases h with h | h
  · subst h; simp [presenceField, readPresence]
  · have hne : ¬ bs.isEmpty := by
      cases bs with
      | nil => simp at h
      | cons a l => simp
    simp only [presenceField, if_neg hne, List.cons_append, readPresence]
    exact takeN_append_of_eq h r

theorem DataItem.deserialize_toBinary (c : CryptoModel) (d : DataItem) (h : d.wf) :
    DataItem.deserialize c d.toBinary = some { d with id := c.sha256 d.signature } := by
  obtain ⟨hst, hsig, hown, hid, htgt, hanc, htb, hbin⟩ := h
  simp only [DataItem.deserialize, DataItem.toBinary, List.append_assoc]
  rw [takeN_append_of_eq (leBytes_length 2 d.sigType)]
  simp only [Option.bind_eq_bind, Option.some_bind]
  rw [takeN_append_of_eq hsig, Option.some_bind, takeN_append_of_eq hown, Option.some_bind,
    readPresence_presenceField htgt, Option.some_bind,
    readPresence_presenceField hanc, Option.some_bind,
    takeN_append_of_eq (leBytes_length 8 d.tags.length), Option.some_bind,
    takeN_append_of_eq (leBytes_length 8 (encodeTags d.tags).length), Option.some_bind,
    leDecode_leBytes_of_lt htb, takeN_append (encodeTags d.tags) d.data, Option.some_bind,
    decodeTags_encodeTags, Option.some_bind, leDecode_leBytes_of_lt (by exact_mod_cast hst)]

theorem leDecode_leBytes8 {n : Nat} (h : n < 2 ^ 64) : leDecode (leBytes 8 n) = n := by
  have h' : n < 256 ^ 8 := by norm_num at h ⊢; exact h
  exact leDecode_leBytes_of_lt h'

/-- The deep-hash input of a data item does not involve its id field. -/
theorem deepHashInput_updateId (d : DataItem) (x : List Nat) :
    DataItem.deepHashInput { d with id := x } = d.deepHashInput := rfl

theorem parseBundleIndex_headers (items : List DataItem)
    (h : ∀ d ∈ items, d.wf) (rest : List Nat) :
    parseBundleIndex items.length ((items.map DataItem.bundleHeader).flatten ++ rest) =
      some (items.map (fun d => (d.toBinary.length, d.id)), rest) := by
  induction items with
  | nil => simp [parseBundleIndex]
  | cons d ds ih =>
    obtain ⟨-, -, -, hid, -, -, -, hbin⟩ := h d (by simp)
    simp only [List.map_cons, List.flatten_cons, List.length_cons, parseBundleIndex,
      DataItem.bundleHeader, List.append_assoc]
    rw [takeN_append_of_eq (leBytes_length 8 d.toBinary.length), Option.bind_eq_bind,
      Option.some_bind, takeN_append_of_eq (List.length_replicate 24 0), Option.some_bind,
      takeN_append_of_eq hid, Option.some_bind,
      ih (fun x hx => h x (by simp [hx]))]
    simp [leDecode_leBytes8 hbin]

theorem parseBundleItems_bodies (c : CryptoModel) (items : List DataItem)
    (hwf : ∀ d ∈ items, d.wf)
    (hver : ∀ d ∈ items,
      c.verify d.signature (deepHashBlobList c d.deepHashInput) = true) :
    parseBundleItems c (items.map (fun d => (d.toBinary.length, d.id)))
      (items.map DataItem.toBinary).flatten = .ok items := by
  induction items with
  | nil => simp [parseBundleItems]
  | cons d ds ih =>
    have hd := hwf d (by simp)
    simp only [List.map_cons, List.flatten_cons, parseBundleItems, takeN_append,
      DataItem.deserialize_toBinary c d hd, deepHashInput_updateId]
    rw [if_pos (hver d (by simp)),
      ih (fun x hx => hwf x (by simp [hx])) (fun x hx => hver x (by simp [hx]))]

/-- C1: deserializing the bundle produced by `create_bundle_from_data_items`
over a vector of well-formed signed data items (each signature verifying
against its deep hash) yields `Ok` with exactly the input items: the same
count, ids (the outer-index id, which coincides with each input item's id),
bodies and tags, with every signature verified along the way (a failing
verification would have produced a non-`Ok` outcome). -/
theorem bundle_roundtrip (c : CryptoModel) (items : List DataItem)
    (hwf : ∀ d ∈ items, d.wf)
    (hver : ∀ d ∈ items,
      c.verify d.signature (deepHashBlobList c d.deepHashInput) = true)
    (hn : items.length < 2 ^ 64) :
    deserializeBundle c (createBundleFromDataItems items) = .ok items := by
  simp only [deserializeBundle, createBundleFromDataItems, List.append_assoc,
    takeN_append_of_eq (leBytes_length 8 items.length),
    takeN_append_of_eq (List.length_replicate 24 0),
    leDecode_leBytes8 hn, parseBundleIndex_headers items hwf,
    parseBundleItems_bodies c items hwf hver]

/-- C1 witness: the round trip evaluated on a concrete singleton bundle
with a crypto model whose verification accepts. -/
theorem bundle_roundtrip_witness :
    deserializeBundle
      ⟨fun _ => List.replicate 32 0, fun _ => [], fun _ _ => true⟩
      (createBundleFromDataItems
        [{ sigType := 1, signature := List.replicate 512 1, id := List.replicate 32 2,
           owner := List.replicate 512 3, target := [], anchor := [],
           tags := [⟨[97], [98]⟩], data := [5, 6, 7] }]) =
      .ok [{ sigType := 1, signature := List.replicate 512 1, id := List.replicate 32 2,
             owner := List.replicate 512 3, target := [], anchor := [],
             tags := [⟨[97], [98]⟩], data := [5, 6, 7] }] := by
  apply bundle_roundtrip
  · intro d hd
    simp only [List.mem_singleton] at hd
    subst hd
    have henc : encodeTags [(⟨[97], [98]⟩ : Tag)] = [2, 2, 97, 2, 98, 0] := by
      simp [encodeTags, encodeTagOne, zigzagEncode, varintEncode_eq]
    refine ⟨by norm_num, by simp, by simp, by simp, Or.inl rfl, Or.inl rfl, ?_, ?_⟩
    · show (encodeTags [(⟨[97], [98]⟩ : Tag)]).length < 2 ^ 64
      rw [henc]
      norm_num
    · show (DataItem.toBinary
          { sigType := 1, signature := List.replicate 512 1, id := List.replicate 32 2,
            owner := List.replicate 512 3, target := [], anchor := [],
            tags := [⟨[97], [98]⟩], data := [5, 6, 7] }).length < 2 ^ 64
      have hp : presenceField ([] : List Nat) = [0] := rfl
      simp only [DataItem.toBinary, hp, henc, List.length_append, leBytes_length,
        List.length_replicate, List.length_cons, List.length_nil]
      norm_num
  · intro d hd
    rfl
  · norm_num

/-- C3: the bundle binary is laid out as the 8-byte little-endian item
count, 24 zero bytes, the `N` index entries (8-byte little-endian body
length, 24 zero bytes, 32-byte id), then the serialized bodies concatenated
in input order; for `N = 0` it is exactly 32 zero bytes (8-byte zero count
plus 24 zero bytes, no entries, no bodies). -/
theorem bundle_layout (items : List DataItem) :
    createBundleFromDataItems items =
      leBytes 8 items.length ++ List.replicate 24 0
        ++ (items.map fun d =>
              leBytes 8 d.toBinary.length ++ List.replicate 24 0 ++ d.id).flatten
        ++ (items.map DataItem.toBinary).flatten ∧
    createBundleFromDataItems [] = List.replicate 32 0 := by
  constructor
  · rfl
  · decide

/-- C8: `deserialize_bundle` does not return an error value on a truncated
32-byte header: it panics (the `next().unwrap()` calls), here evaluated on
the empty input. -/
theorem deserializeBundle_truncated_panics (c : CryptoModel) :
    deserializeBundle c [] = .panicked := rfl

theorem buildLayer_length (c : CryptoModel) (l : List MNode) :
    (buildLayer c l).length = (l.length + 1) / 2 := by
  induction l using buildLayer.induct c with
  | case1 a b rest ih => simp only [buildLayer, List.length_cons, ih]; omega
  | case2 l h1 =>
    match l, h1 with
    | [], _ => simp [buildLayer]
    | [a], _ => simp [buildLayer]
    | a :: b :: rest, h => exact ((h a b rest rfl).elim)

theorem resolveProofs_length (n : MNode) (acc : List Nat) :
    (resolveProofs n acc).length = n.leafCount := by
  induction n generalizing acc with
  | leaf dh i mn mx => rfl
  | branch i l r mx ihl ihr =>
    simp [resolveProofs, MNode.leafCount, ihl, ihr]

theorem buildLayer_leafCount (c : CryptoModel) (l : List MNode) :
    ((buildLayer c l).map MNode.leafCount).sum = (l.map MNode.leafCount).sum := by
  induction l using buildLayer.induct c with
  | case1 a b rest ih =>
    simp only [buildLayer, List.map_cons, List.sum_cons, MNode.leafCount, ih]
    omega
  | case2 l h1 =>
    match l, h1 with
    | [], _ => simp [buildLayer]
    | [a], _ => simp [buildLayer]
    | a :: b :: rest, h => exact ((h a b rest rfl).elim)

theorem generateDataRoot_leafCount (c : CryptoModel) (nodes : List MNode)
    (h : nodes ≠ []) :
    (generateDataRoot c nodes).leafCount = (nodes.map MNode.leafCount).sum := by
  induction nodes using generateDataRoot.induct c with
  | case1 => simp at h
  | case2 n => simp [generateDataRoot, MNode.leafCount]
  | case3 a b rest ih =>
    rw [generateDataRoot]
    rw [ih ?hne, buildLayer_leafCount]
    case hne =>
      intro hc
      have := buildLayer_length c (a :: b :: rest)
      rw [hc] at this
      simp at this
      omega

/-- Unfolding equation for `splitChunks` (well-founded recursion). -/
theorem splitChunks_eq (data : List Nat) (offset : Nat) :
    splitChunks data offset =
      if data.length < CHUNK_SIZE then [⟨data, offset, offset + data.length⟩]
      else ⟨data.take CHUNK_SIZE, offset, offset + CHUNK_SIZE⟩ ::
        splitChunks (data.drop CHUNK_SIZE) (offset + CHUNK_SIZE) := by
  rw [splitChunks]
  split <;> simp_all

theorem splitChunks_ne_nil (data : List Nat) (offset : Nat) :
    splitChunks data offset ≠ [] := by
  rw [splitChunks_eq]
  split <;> simp

theorem splitChunks_length (data : List Nat) (offset : Nat) :
    (splitChunks data offset).length = data.length / CHUNK_SIZE + 1 := by
  induction data, offset using splitChunks.induct with
  | case1 data offset h =>
    rw [splitChunks_eq, if_pos h]
    simp [Nat.div_eq_of_lt h]
  | case2 data offset h ih =>
    rw [splitChunks_eq, if_neg h]
    simp only [List.length_cons, ih, List.length_drop]
    rw [Nat.div_eq_sub_div (by norm_num [CHUNK_SIZE]) (le_of_not_lt h)]

theorem getLast?_cons_of_ne_nil {α : Type} (a : α) {l : List α} (h : l ≠ []) :
    (a :: l).getLast? = l.getLast? := by
  cases l with
  | nil => exact absurd rfl h
  | cons b t => simp [List.getLast?_cons_cons]

theorem splitChunks_getLast_multiple (k : Nat) :
    ∀ (data : List Nat) (offset : Nat), data.length = k * CHUNK_SIZE →
      (splitChunks data offset).getLast? =
        some ⟨[], offset + data.length, offset + data.length⟩ := by
  induction k with
  | zero =>
    intro data offset h
    rw [Nat.zero_mul] at h
    have hnil : data = [] := List.length_eq_zero.mp h
    subst hnil
    rw [splitChunks_eq]
    simp [CHUNK_SIZE]
  | succ k ih =>
    intro data offset h
    have hge : CHUNK_SIZE ≤ data.length := by
      rw [h, add_mul, one_mul]
      omega
    have hC : ¬ data.length < CHUNK_SIZE := by omega
    have hdrop : (data.drop CHUNK_SIZE).length = k * CHUNK_SIZE := by
      rw [List.length_drop, h, add_mul, one_mul]
      omega
    rw [splitChunks_eq, if_neg hC,
      getLast?_cons_of_ne_nil _ (splitChunks_ne_nil _ _),
      ih (data.drop CHUNK_SIZE) (offset + CHUNK_SIZE) hdrop]
    simp only [List.length_drop, Option.some.injEq, ChunkRange.mk.injEq, true_and]
    omega

theorem rebalanceChunks_of_last_empty {l : List ChunkRange} {last : ChunkRange}
    (h : l.getLast? = some last) (he : last.bytes = []) : rebalanceChunks l = l := by
  cases hd : l.dropLast.getLast? with
  | none => simp [rebalanceChunks, h, hd]
  | some p => simp [rebalanceChunks, h, hd, he]

theorem rebalanceChunks_length (l : List ChunkRange) :
    (rebalanceChunks l).length = l.length := by
  cases h1 : l.getLast? with
  | none => simp [rebalanceChunks, h1]
  | some last =>
    cases h2 : l.dropLast.getLast? with
    | none => simp [rebalanceChunks, h1, h2]
    | some penult =>
      have hne : l.dropLast ≠ [] := by
        intro hc
        rw [hc] at h2
        simp at h2
      have hlen2 : 2 ≤ l.length := by
        have h1' : l ≠ [] := by
          intro hc
          rw [hc] at h1
          simp at h1
        have := List.length_pos.mpr hne
        simp only [List.length_dropLast] at this
        omega
      simp only [rebalanceChunks, h1, h2]
      split
      · simp only [List.length_append, List.length_dropLast, List.length_cons,
          List.length_nil]
        omega
      · rfl

theorem generateLeaves_length (c : CryptoModel) (data : List Nat) :
    (generateLeaves c data).length = data.length / CHUNK_SIZE + 1 := by
  simp [generateLeaves, rebalanceChunks_length, splitChunks_length]

theorem map_mkLeaf_leafCount_sum (c : CryptoModel) (cl : List ChunkRange) :
    ((cl.map (mkLeaf c)).map MNode.leafCount).sum = cl.length := by
  induction cl with
  | nil => rfl
  | cons a l ih =>
    simp only [List.map_cons, List.sum_cons, List.length_cons, ih]
    show 1 + l.length = l.length + 1
    omega

theorem getLast?_map {α β : Type} (f : α → β) (l : List α) :
    (l.map f).getLast? = l.getLast?.map f := by
  induction l with
  | nil => rfl
  | cons a l ih =>
    cases l with
    | nil => rfl
    | cons b t => simpa [List.getLast?_cons_cons] using ih

theorem merklize_len_aux (c : CryptoModel) (data : List Nat) :
    (resolveProofs (generateDataRoot c (generateLeaves c data)) []).length =
      (generateLeaves c data).length := by
  have hne : generateLeaves c data ≠ [] := by
    have hlen := generateLeaves_length c data
    intro hc
    rw [hc] at hlen
    simp at hlen
  rw [resolveProofs_length, generateDataRoot_leafCount c _ hne]
  simp only [generateLeaves, map_mkLeaf_leafCount_sum, List.length_map]

/-- C2: the transaction returned by `merklize` always has as many chunks as
proofs, and whenever the final leaf produced during splitting is empty
(`min_byte_range == max_byte_range`) both that leaf and its proof are
dropped, so a payload of length exactly `k * CHUNK_SIZE` yields exactly `k`
chunks and `k` proofs. -/
theorem merklize_counts (c : CryptoModel) (data : List Nat) :
    (merklize c data).chunks.length = (merklize c data).proofs.length ∧
    (∀ k, data.length = k * CHUNK_SIZE →
      (merklize c data).chunks.length = k ∧ (merklize c data).proofs.length = k) := by
  have hplen := merklize_len_aux c data
  have hllen := generateLeaves_length c data
  constructor
  · rcases hlast : (generateLeaves c data).getLast? with _ | last
    · simp [merklize, hlast, hplen]
    · by_cases hmm : last.maxR = last.minR
      · simp [merklize, hlast, hmm, hplen]
      · simp [merklize, hlast, hmm, hplen]
  · intro k hk
    have hCpos : 0 < CHUNK_SIZE := by norm_num [CHUNK_SIZE]
    have hdiv : data.length / CHUNK_SIZE = k := by
      rw [hk, Nat.mul_div_cancel _ hCpos]
    have hsplit := splitChunks_getLast_multiple k data 0 hk
    have hreb : rebalanceChunks (splitChunks data 0) = splitChunks data 0 :=
      rebalanceChunks_of_last_empty hsplit rfl
    have hlast : (generateLeaves c data).getLast? =
        some (mkLeaf c ⟨[], 0 + data.length, 0 + data.length⟩) := by
      rw [generateLeaves, hreb, getLast?_map, hsplit]
      rfl
    constructor
    · simp [merklize, hlast, mkLeaf, MNode.maxR, MNode.minR, List.length_dropLast,
        hllen, hdiv]
    · simp [merklize, hlast, mkLeaf, MNode.maxR, MNode.minR, List.length_dropLast,
        hplen, hllen, hdiv]

/-- C2 witness: the empty payload (`k = 0`) yields no chunks and no proofs. -/
theorem merklize_counts_witness :
    (merklize trivialCrypto []).chunks.length = 0 ∧
    (merklize trivialCrypto []).proofs.length = 0 :=
  (merklize_counts trivialCrypto []).2 0 (by decide)

--=========================
-- C4: reward formula
--=========================

/-- C4: for a non-empty payload that keeps the arithmetic inside `u64`,
the reward of the transaction built by `create_transaction` equals
`base + incremental * (ceil(data_size / CHUNK_SIZE) - 1)` with
`CHUNK_SIZE = BLOCK_SIZE = 262144` and `data_size` the payload length. -/
theorem create_transaction_reward (c : CryptoModel) (modulus : List Nat)
    (tags : List Tag) (lastTx data : List Nat) (base incremental : Nat)
    (hpos : 0 < data.length) (hlen : data.length < 2 ^ 64)
    (hfit : base + incremental * ((data.length + CHUNK_SIZE - 1) / CHUNK_SIZE - 1)
      < 2 ^ 64) :
    BLOCK_SIZE = CHUNK_SIZE ∧ CHUNK_SIZE = 262144 ∧
    (createTransaction c modulus tags lastTx data (base, incremental)).dataSize =
      data.length ∧
    (createTransaction c modulus tags lastTx data (base, incremental)).reward =
      base + incremental * ((data.length + CHUNK_SIZE - 1) / CHUNK_SIZE - 1) := by
  refine ⟨by norm_num [BLOCK_SIZE, CHUNK_SIZE], rfl, rfl, ?_⟩
  have hblocks : data.length / BLOCK_SIZE +
      (if data.length % BLOCK_SIZE ≠ 0 then 1 else 0) =
      (data.length + CHUNK_SIZE - 1) / CHUNK_SIZE := by
    simp only [BLOCK_SIZE, CHUNK_SIZE]
    norm_num
    by_cases hz : data.length % 262144 = 0 <;> simp [hz] <;> omega
  have h1 : 1 ≤ data.length / BLOCK_SIZE +
      (if data.length % BLOCK_SIZE ≠ 0 then 1 else 0) := by
    simp only [BLOCK_SIZE]
    norm_num
    by_cases hz : data.length % 262144 = 0 <;> simp [hz] <;> omega
  have h2 : data.length / BLOCK_SIZE +
      (if data.length % BLOCK_SIZE ≠ 0 then 1 else 0) ≤ 2 ^ 64 := by
    simp only [BLOCK_SIZE]
    norm_num
    by_cases hz : data.length % 262144 = 0 <;> simp [hz] <;> omega
  have key : ∀ m : Nat, 1 ≤ m → m ≤ 2 ^ 64 →
      m = (data.length + CHUNK_SIZE - 1) / CHUNK_SIZE →
      (base + incremental * ((m + (2 ^ 64 - 1)) % 2 ^ 64)) % 2 ^ 64 =
        base + incremental * ((data.length + CHUNK_SIZE - 1) / CHUNK_SIZE - 1) := by
    intro m hm1 hm2 hm3
    have hws : (m + (2 ^ 64 - 1)) % 2 ^ 64 = m - 1 := by omega
    rw [hws, hm3, Nat.mod_eq_of_lt hfit]
  have goalEq : (createTransaction c modulus tags lastTx data (base, incremental)).reward =
      (base + incremental * (((data.length / BLOCK_SIZE +
        (if data.length % BLOCK_SIZE ≠ 0 then 1 else 0)) + (2 ^ 64 - 1)) % 2 ^ 64))
        % 2 ^ 64 := rfl
  rw [goalEq]
  exact key _ h1 h2 hblocks

/-- C4 witness: a 1-byte payload with price terms `(5, 3)` yields reward
`5 + 3 * 0 = 5`. -/
theorem create_transaction_reward_witness :
    (createTransaction trivialCrypto [] [] [] [0] (5, 3)).reward = 5 := by
  have h := create_transaction_reward trivialCrypto [] [] [] [0] 5 3
    (by norm_num) (by norm_num) (by norm_num [CHUNK_SIZE])
  have h4 := h.2.2.2
  norm_num [CHUNK_SIZE] at h4
  exact h4

--=========================
-- C5: path chunker
--=========================

theorem foldl_chunkStep_spec (B : Nat) :
    ∀ (files : List (String × Nat)) (ip : List PathsChunk) (i : List String) (len : Nat),
      (((files.foldl (chunkStep B) (ip, i, len)).1.map PathsChunk.size).sum +
          (files.foldl (chunkStep B) (ip, i, len)).2.2 =
        (ip.map PathsChunk.size).sum + len + (files.map Prod.snd).sum) ∧
      ((∀ pc ∈ ip, pc.size ≤ B ∨ pc.paths.length = 1) → (len ≤ B ∨ i.length = 1) →
        ((∀ pc ∈ (files.foldl (chunkStep B) (ip, i, len)).1,
            pc.size ≤ B ∨ pc.paths.length = 1) ∧
          ((files.foldl (chunkStep B) (ip, i, len)).2.2 ≤ B ∨
            (files.foldl (chunkStep B) (ip, i, len)).2.1.length = 1))) ∧
      ((i = [] → len = 0) → (files.foldl (chunkStep B) (ip, i, len)).2.1 = [] →
        (files.foldl (chunkStep B) (ip, i, len)).2.2 = 0) := by
  intro files
  induction files with
  | nil =>
    intro ip i len
    exact ⟨by simp, fun h1 h2 => ⟨h1, h2⟩, fun h3 => h3⟩
  | cons p ps ih =>
    intro ip i len
    simp only [List.foldl_cons]
    by_cases hov : len + p.2 > B
    · have hstep : chunkStep B (ip, i, len) p = (ip ++ [⟨i, len⟩], [p.1], p.2) := by
        simp [chunkStep, hov]
      rw [hstep]
      obtain ⟨ihsum, ihok, ihz⟩ := ih (ip ++ [⟨i, len⟩]) [p.1] p.2
      refine ⟨?_, ?_, ?_⟩
      · rw [ihsum]
        simp only [List.map_append, List.sum_append, List.map_cons, List.sum_cons,
          List.map_nil, List.sum_nil]
        omega
      · intro hip hcur
        apply ihok
        · intro pc hpc
          rcases List.mem_append.mp hpc with h | h
          · exact hip pc h
          · simp only [List.mem_singleton] at h
            subst h
            exact hcur
        · right
          rfl
      · intro _
        apply ihz
        intro hc
        simp at hc
    · have hstep : chunkStep B (ip, i, len) p = (ip, i ++ [p.1], len + p.2) := by
        simp [chunkStep, hov]
      rw [hstep]
      obtain ⟨ihsum, ihok, ihz⟩ := ih ip (i ++ [p.1]) (len + p.2)
      refine ⟨?_, ?_, ?_⟩
      · rw [ihsum]
        simp only [List.map_cons, List.sum_cons]
        omega
      · intro hip _
        exact ihok hip (Or.inl (by omega))
      · intro _
        apply ihz
        intro hc
        simp at hc

/-- C5 (amended): `chunk_file_paths` performs the greedy fold, the sum of
the batch byte sizes equals the sum of the input file sizes, and every
batch either has total size at most the budget or consists of a single
(oversized) file — such singleton over-budget batches can occur at any
position, not only first. -/
theorem chunk_file_paths_amended (files : List (String × Nat)) (B : Nat) :
    ((chunkFilePaths files B).map PathsChunk.size).sum = (files.map Prod.snd).sum ∧
    ∀ pc ∈ chunkFilePaths files B, pc.size ≤ B ∨ pc.paths.length = 1 := by
  obtain ⟨hsum, hok, hz⟩ := foldl_chunkStep_spec B files [] [] 0
  have hok' := hok (by simp) (Or.inl (Nat.zero_le B))
  simp only [chunkFilePaths]
  set r := files.foldl (chunkStep B) ([], [], 0) with hr
  simp only [List.map_nil, List.sum_nil, Nat.zero_add, Nat.add_zero] at hsum
  by_cases hlast : r.2.1.length > 0
  · rw [if_pos hlast]
    constructor
    · simp only [List.map_append, List.sum_append, List.map_cons, List.sum_cons,
        List.map_nil, List.sum_nil]
      omega
    · intro pc hpc
      rcases List.mem_append.mp hpc with h | h
      · exact hok'.1 pc h
      · simp only [List.mem_singleton] at h
        subst h
        exact hok'.2
  · rw [if_neg hlast]
    have hnil : r.2.1 = [] := by
      rcases List.eq_nil_or_concat r.2.1 with h | ⟨l, a, h⟩
      · exact h
      · rw [h] at hlast
        simp at hlast
    have hz0 : r.2.2 = 0 := hz (fun _ => rfl) hnil
    refine ⟨by omega, fun pc hpc => hok'.1 pc hpc⟩

/-- C5 counterexample: with files of sizes `[1, 11]` and budget `10`, the
second batch (not the first) is the one holding the oversized file and its
size exceeds the budget, contradicting the claim that every batch except
possibly the first stays within budget. -/
theorem chunk_file_paths_counterexample :
    ¬ (∀ pc ∈ (chunkFilePaths [("a", 1), ("b", 11)] 10).drop 1, pc.size ≤ 10) := by
  decide

/-- C5 witness: the amended statement evaluated on the same concrete
input: sizes sum to 12 and the over-budget batch is a singleton. -/
theorem chunk_file_paths_amended_witness :
    ((chunkFilePaths [("a", 1), ("b", 11)] 10).map PathsChunk.size).sum = 12 ∧
    ((⟨["b"], 11⟩ : PathsChunk).size ≤ 10 ∨
      (⟨["b"], 11⟩ : PathsChunk).paths.length = 1) := by
  constructor
  · have h := (chunk_file_paths_amended [("a", 1), ("b", 11)] 10).1
    simpa using h
  · exact (chunk_file_paths_amended [("a", 1), ("b", 11)] 10).2 ⟨["b"], 11⟩ (by decide)

--=========================
-- C6: chunk POST retries
--=========================

theorem retryGo_ok (chunk : Chunk) (statuses : Nat → Nat) (rem next : Nat)
    (off : Nat) (att slp : Nat) :
    retryGo chunk statuses rem next (.ok off) att slp = ⟨.ok off, att, slp⟩ := by
  cases rem <;> rfl

theorem retryGo_attempts_le (chunk : Chunk) (statuses : Nat → Nat) :
    ∀ (rem next : Nat) (resp : Except Unit Nat) (att slp : Nat),
      (retryGo chunk statuses rem next resp att slp).attempts ≤ att + rem := by
  intro rem
  induction rem with
  | zero => intro next resp att slp; simp [retryGo]
  | succ rem ih =>
    intro next resp att slp
    cases resp with
    | ok off => simp [retryGo]
    | error e =>
      have := ih (next + 1) (postChunk chunk (statuses next)) (att + 1) (slp + 1)
      simp only [retryGo]
      omega

theorem retryGo_sleeps (chunk : Chunk) (statuses : Nat → Nat) :
    ∀ (rem next : Nat) (resp : Except Unit Nat) (att slp : Nat),
      ∃ j, (retryGo chunk statuses rem next resp att slp).attempts = att + j ∧
        (retryGo chunk statuses rem next resp att slp).sleeps = slp + j := by
  intro rem
  induction rem with
  | zero => intro next resp att slp; exact ⟨0, rfl, rfl⟩
  | succ rem ih =>
    intro next resp att slp
    cases resp with
    | ok off => exact ⟨0, rfl, rfl⟩
    | error e =>
      obtain ⟨j, h1, h2⟩ := ih (next + 1) (postChunk chunk (statuses next)) (att + 1) (slp + 1)
      refine ⟨j + 1, ?_, ?_⟩
      · simp only [retryGo, h1]
        omega
      · simp only [retryGo, h2]
        omega

theorem retryGo_all_fail (chunk : Chunk) (statuses : Nat → Nat) :
    ∀ (rem next att slp : Nat),
      (∀ m, m < rem → statuses (next + m) ≠ 200) →
      retryGo chunk statuses rem next (.error ()) att slp =
        ⟨.error (), att + rem, slp + rem⟩ := by
  intro rem
  induction rem with
  | zero => intro next att slp _; rfl
  | succ rem ih =>
    intro next att slp hfail
    have h0 : statuses next ≠ 200 := by
      have := hfail 0 (by omega)
      simpa using this
    have hpost : postChunk chunk (statuses next) = .error () := by
      simp [postChunk, h0]
    simp only [retryGo, hpost]
    rw [ih (next + 1) (att + 1) (slp + 1) (fun m hm => by
      have := hfail (m + 1) (by omega)
      simpa [Nat.add_assoc, Nat.add_comm, Nat.add_left_comm] using this)]
    congr 1 <;> omega

theorem retryGo_first_success (chunk : Chunk) (statuses : Nat → Nat) :
    ∀ (rem i next att slp : Nat), i < rem →
      statuses (next + i) = 200 → (∀ j, j < i → statuses (next + j) ≠ 200) →
      retryGo chunk statuses rem next (.error ()) att slp =
        ⟨.ok chunk.offset, att + i + 1, slp + i + 1⟩ := by
  intro rem
  induction rem with
  | zero => intro i next att slp hi; omega
  | succ rem ih =>
    intro i next att slp hi hsucc hbefore
    cases i with
    | zero =>
      have hpost : postChunk chunk (statuses next) = .ok chunk.offset := by
        have : statuses next = 200 := by simpa using hsucc
        simp [postChunk, this]
      simp only [retryGo, hpost, retryGo_ok]
    | succ i =>
      have h0 : statuses next ≠ 200 := by
        have := hbefore 0 (by omega)
        simpa using this
      have hpost : postChunk chunk (statuses next) = .error () := by
        simp [postChunk, h0]
      simp only [retryGo, hpost]
      rw [ih i (next + 1) (att + 1) (slp + 1) (by omega)
        (by rw [show next + 1 + i = next + (i + 1) by omega]; exact hsucc)
        (fun j hj => by
          have := hbefore (j + 1) (by omega)
          simpa [Nat.add_assoc, Nat.add_comm, Nat.add_left_comm] using this)]
      congr 1 <;> omega

/-- C6 counterexample: when every attempt fails, `post_chunk_with_retries`
makes 11 POST attempts (the initial one plus `CHUNKS_RETRIES = 10`
retries), contradicting the claim of at most 10 attempts. -/
theorem post_chunk_retries_counterexample :
    ¬ ((postChunkWithRetries { offset := 7 } (fun _ => 500)).attempts ≤
        CHUNKS_RETRIES) := by
  decide

/-- C6 (amended): `post_chunk_with_retries` makes at most
`CHUNKS_RETRIES + 1 = 11` POST attempts (one initial plus up to 10
retries), sleeps `CHUNKS_RETRY_SLEEP = 1` second exactly once between
consecutive attempts, re-sends the same chunk each time, returns
`Ok(chunk.offset)` on the first attempt whose status is 200, and returns
the error when all 11 attempts fail. -/
theorem post_chunk_retries_amended (chunk : Chunk) (statuses : Nat → Nat) :
    (postChunkWithRetries chunk statuses).attempts ≤ CHUNKS_RETRIES + 1 ∧
    (postChunkWithRetries chunk statuses).sleeps + 1 =
      (postChunkWithRetries chunk statuses).attempts ∧
    CHUNKS_RETRY_SLEEP = 1 ∧
    ((∀ i, i ≤ CHUNKS_RETRIES → statuses i ≠ 200) →
      (postChunkWithRetries chunk statuses).result = .error ()) ∧
    (∀ i, i ≤ CHUNKS_RETRIES → statuses i = 200 →
      (∀ j, j < i → statuses j ≠ 200) →
      (postChunkWithRetries chunk statuses).result = .ok chunk.offset ∧
      (postChunkWithRetries chunk statuses).attempts = i + 1) := by
  refine ⟨?_, ?_, rfl, ?_, ?_⟩
  · have := retryGo_attempts_le chunk statuses CHUNKS_RETRIES 1
      (postChunk chunk (statuses 0)) 1 0
    simpa [postChunkWithRetries] using this
  · obtain ⟨j, h1, h2⟩ := retryGo_sleeps chunk statuses CHUNKS_RETRIES 1
      (postChunk chunk (statuses 0)) 1 0
    simp only [postChunkWithRetries, h1, h2]
    omega
  · intro hfail
    have h0 : statuses 0 ≠ 200 := hfail 0 (by omega)
    have hpost : postChunk chunk (statuses 0) = .error () := by
      simp [postChunk, h0]
    simp only [postChunkWithRetries, hpost]
    rw [retryGo_all_fail chunk statuses CHUNKS_RETRIES 1 1 0
      (fun m hm => hfail (1 + m) (by simp [CHUNKS_RETRIES] at hm ⊢; omega))]
  · intro i hi hsucc hbefore
    cases i with
    | zero =>
      have hpost : postChunk chunk (statuses 0) = .ok chunk.offset := by
        simp [postChunk, hsucc]
      simp only [postChunkWithRetries, hpost, retryGo_ok]
      exact ⟨trivial, trivial⟩
    | succ i =>
      have h0 : statuses 0 ≠ 200 := hbefore 0 (by omega)
      have hpost : postChunk chunk (statuses 0) = .error () := by
        simp [postChunk, h0]
      simp only [postChunkWithRetries, hpost]
      rw [retryGo_first_success chunk statuses CHUNKS_RETRIES i 1 1 0
        (by simp [CHUNKS_RETRIES] at hi ⊢; omega)
        (by rw [show 1 + i = i + 1 by omega]; exact hsucc)
        (fun j hj => by
          have := hbefore (j + 1) (by omega)
          rw [show 1 + j = j + 1 by omega]
          exact this)]
      exact ⟨rfl, by simp; omega⟩

/-- C6 witness: with statuses failing twice then succeeding on attempt
index 2, the retry loop returns the chunk's offset after exactly 3
attempts. -/
theorem post_chunk_retries_amended_witness :
    (postChunkWithRetries { offset := 7 }
        (fun i => if i = 2 then 200 else 500)).result = .ok 7 ∧
    (postChunkWithRetries { offset := 7 }
        (fun i => if i = 2 then 200 else 500)).attempts = 3 := by
  have h := (post_chunk_retries_amended { offset := 7 }
    (fun i => if i = 2 then 200 else 500)).2.2.2.2 2
    (by norm_num [CHUNKS_RETRIES]) (by norm_num)
    (by intro j hj; interval_cases j <;> norm_num)
  exact ⟨h.1, h.2⟩

--=========================
-- C7: get_status classification
--=========================

/-- C7: `get_status` classifies gateway responses as data values: 200 with
body "Pending" or code 202 give `Ok` with status `Pending` and no raw
status; 200 with any other (parsable) body gives `Ok` with `Confirmed` and
the parsed confirmation payload; 404 gives `Ok` with `NotFound`; every
other code gives `Err` carrying the observed HTTP code. -/
theorem get_status_classification (parse : String → Option RawStatus) (id : List Nat)
    (resp : HttpResponse) :
    (resp.code = 200 → resp.body = "Pending" →
      getStatus parse id resp = .ok { id := id, status := .Pending }) ∧
    (resp.code = 200 → resp.body ≠ "Pending" → ∀ raw, parse resp.body = some raw →
      getStatus parse id resp =
        .ok { id := id, status := .Confirmed, rawStatus := some raw }) ∧
    (resp.code = 202 → getStatus parse id resp = .ok { id := id, status := .Pending }) ∧
    (resp.code = 404 → getStatus parse id resp = .ok { id := id, status := .NotFound }) ∧
    (resp.code ≠ 200 → resp.code ≠ 202 → resp.code ≠ 404 →
      getStatus parse id resp = .error (.network resp.code)) := by
  refine ⟨?_, ?_, ?_, ?_, ?_⟩
  · intro h200 hp
    simp [getStatus, h200, hp]
  · intro h200 hp raw hparse
    simp [getStatus, h200, hp, hparse]
  · intro h202
    simp [getStatus, h202]
  · intro h404
    simp [getStatus, h404]
  · intro h1 h2 h3
    simp [getStatus, h1, h2, h3]

/-- C7 witness: a 200/"Pending" response and a 404 response, classified. -/
theorem get_status_classification_witness :
    getStatus (fun _ => some ⟨100, [1], 3⟩) [9] ⟨200, "Pending"⟩ =
      .ok { id := [9], status := .Pending } ∧
    getStatus (fun _ => some ⟨100, [1], 3⟩) [9] ⟨404, ""⟩ =
      .ok { id := [9], status := .NotFound } :=
  ⟨(get_status_classification (fun _ => some ⟨100, [1], 3⟩) [9] ⟨200, "Pending"⟩).1
      rfl rfl,
    (get_status_classification (fun _ => some ⟨100, [1], 3⟩) [9] ⟨404, ""⟩).2.2.2.1 rfl⟩

--=========================
-- C9: write_status sidecar naming
--=========================

/-- C9 counterexample: `upload_raw_data` statuses carry no file path; for
such a status `write_status` (with no explicit stem) uses the stem
`txid_{id}`, so the stem is not the BLAKE3 hash of any file path of the
status. -/
theorem write_status_stem_counterexample :
    ¬ (∀ (status : Status) (stem ext : String),
        writeStatusName (fun _ => "") (fun _ => "") status none = .ok (stem, ext) →
          ∃ p, status.filePath = some p ∧ stem = (fun _ : String => "") p) := by
  intro h
  obtain ⟨p, hp, -⟩ :=
    h { id := [1], filePath := none } ("txid_" ++ "") "json" rfl
  exact Option.noConfusion hp

/-- C9 (amended): a status persisted by `write_status` with no explicit
stem always gets extension `json`; when it has a file path (and a
non-empty id) its stem is the BLAKE3 hex of that path, and when it has no
file path (as for `upload_raw_data`) its stem is `txid_` followed by the
id's base64url display. -/
theorem write_status_stem_amended (blake3Hex : String → String)
    (idDisplay : List Nat → String) (status : Status) (stem ext : String)
    (h : writeStatusName blake3Hex idDisplay status none = .ok (stem, ext)) :
    ext = "json" ∧
    ((∃ p, status.filePath = some p ∧ status.id ≠ [] ∧ stem = blake3Hex p) ∨
      (status.filePath = none ∧ stem = "txid_" ++ idDisplay status.id)) := by
  cases hfp : status.filePath with
  | none =>
    simp only [writeStatusName, hfp] at h
    rw [Except.ok.injEq, Prod.mk.injEq] at h
    obtain ⟨h1, h2⟩ := h
    exact ⟨h2.symm, Or.inr ⟨rfl, h1.symm⟩⟩
  | some p =>
    simp only [writeStatusName, hfp] at h
    by_cases hid : status.id = []
    · rw [if_pos hid] at h
      exact absurd h (by simp)
    · rw [if_neg hid, Except.ok.injEq, Prod.mk.injEq] at h
      obtain ⟨h1, h2⟩ := h
      exact ⟨h2.symm, Or.inl ⟨p, rfl, hid, h1.symm⟩⟩

/-- C9 witness: the amended statement at a status with file path "f" and a
non-empty id. -/
theorem write_status_stem_amended_witness :
    ("json" : String) = "json" ∧
    ((∃ p, (some "f" : Option String) = some p ∧ ([1] : List Nat) ≠ [] ∧
        ("h" : String) = "h") ∨
      ((some "f" : Option String) = none ∧ ("h" : String) = "txid_" ++ "")) := by
  exact write_status_stem_amended (fun _ => "h") (fun _ => "")
    { id := [1], filePath := some "f" } "h" "json" rfl

--=========================
-- C10: bundle stream buffer selection
--=========================

/-- C10: the upload-bundles streams choose the `(bundles_buffer,
chunks_buffer)` pair solely from the size of `paths_chunks[0]`: on an empty
vector the indexing panics (modelled by `none`) before any upload starts,
and the choice is unchanged by whatever batches follow the first. -/
theorem upload_bundles_buffer_selection (pathsChunks : List PathsChunk)
    (buffer : Nat) :
    (pathsChunks = [] → bundlesChunksBuffers pathsChunks buffer = none) ∧
    (∀ pc rest, pathsChunks = pc :: rest →
      bundlesChunksBuffers pathsChunks buffer =
        some (if pc.size > MAX_TX_DATA then (1, buffer * CHUNKS_BUFFER_FACTOR)
          else (buffer, 1)) ∧
      ∀ rest', bundlesChunksBuffers (pc :: rest') buffer =
        bundlesChunksBuffers pathsChunks buffer) := by
  constructor
  · intro h
    subst h
    rfl
  · intro pc rest h
    subst h
    exact ⟨rfl, fun _ => rfl⟩

/-- C10 witness: the empty vector panics; a single small batch selects
`(buffer, 1)`. -/
theorem upload_bundles_buffer_selection_witness :
    bundlesChunksBuffers [] 3 = none ∧
    bundlesChunksBuffers [⟨["a"], 5⟩] 3 = some (3, 1) := by
  refine ⟨(upload_bundles_buffer_selection [] 3).1 rfl, ?_⟩
  have h := ((upload_bundles_buffer_selection [⟨["a"], 5⟩] 3).2 ⟨["a"], 5⟩ [] rfl).1
  rw [h]
  norm_num [MAX_TX_DATA]

end Arloader
